import Mathlib

/-!
Shallow embedding of the register/transaction/measurement core of the
linie repository: PitayaCSR.set, PitayaCSR.get and PitayaCSR.set_iir from
src/test/csr.py, and CsrParams.writes, CsrThread.gen and the Filter
sampler from src/test/transfer.py.  Machine integers are modelled as Nat
and Int; Python floor division and modulo on integers coincide with Lean
Int division and modulo (ediv/emod) for the positive power-of-two
divisors used here.
-/

/-- Error taxonomy of the register write path.  In the source the three
failures are, in order: a KeyError from the map lookup, the assertion on
the writable flag, and the assertion on the range check. -/
inductive CsrError where
  | unknownRegister : CsrError
  | readOnlyRegister : CsrError
  | outOfRange : CsrError
deriving DecidableEq

/-- A register map entry is (address, byte width, writable flag), the
unpacking addr, nr, wr = self.map[name] in PitayaCSR. -/
abbrev RegMap := String → Option (Nat × Nat × Bool)

/-- The write loop of PitayaCSR.set (src/test/csr.py lines 16-18): for i
in range(nr) the byte (val >> (8*(nr - i - 1))) & 0xff is handed to
set_one at address addr + i*4. -/
def encodeWrites (addr nr val : Nat) : List (Nat × Nat) :=
  (List.range nr).map fun i => (addr + i * 4, val >>> (8 * (nr - i - 1)) % 256)

/-- PitayaCSR.set (src/test/csr.py lines 10-18).  Returns the (address,
byte) pairs passed to set_one together with the failure, if any.  In the
source, ma = 1 << nr*8, val = value & (ma - 1) (for a Python int this is
value mod ma, hence Int.emod), and the checks `assert wr` and
`assert value >= -ma/2 and value < ma` both precede the write loop, so a
failing call performs no writes.  The Python float -ma/2 equals the exact
integer -(ma / 2) because ma is a power of two. -/
def pitaya_set (m : RegMap) (name : String) (value : Int) :
    List (Nat × Nat) × Option CsrError :=
  match m name with
  | none => ([], some CsrError.unknownRegister)
  | some (addr, nr, wr) =>
    if wr then
      if -((2 ^ (nr * 8) : Int) / 2) ≤ value ∧ value < 2 ^ (nr * 8) then
        (encodeWrites addr nr (value % 2 ^ (nr * 8)).toNat, none)
      else ([], some CsrError.outOfRange)
    else ([], some CsrError.readOnlyRegister)

/-- Pointwise update of a byte-addressed register file: the effect of one
set_one call on the simulated backend (PitayaTB.set_one stores one value
per address). -/
def writeByte (f : Nat → Nat) (a v : Nat) : Nat → Nat :=
  fun x => if x = a then v else f x

/-- Apply a list of (address, byte) writes to a register file in order. -/
def applyWrites (f : Nat → Nat) : List (Nat × Nat) → Nat → Nat
  | [] => f
  | (a, v) :: ws => applyWrites (writeByte f a v) ws

/-- PitayaCSR.get (src/test/csr.py lines 20-25): v = 0; for i in
range(nr): v |= self.get_one(addr + i*4) << 8*(nr - i - 1); return v. -/
def pitaya_get (f : Nat → Nat) (addr nr : Nat) : Nat :=
  (List.range nr).foldl (fun v i => v ||| f (addr + i * 4) <<< (8 * (nr - i - 1))) 0

/-- PitayaTB.get_one (src/test/csr.py lines 81-82): the simulated backend
returns 0 for every address. -/
def pitayaTB_get_one (_ : Nat) : Nat := 0

/-- Register map with a single writable one-byte register, used for
concrete instances of the codec claims. -/
def gmap1 : RegMap := fun s => if s = "gain" then some (0x100, 1, true) else none

/-- Register map with a single writable two-byte register at address
0x100, the end-to-end scenario map. -/
def gmap2 : RegMap := fun s => if s = "gain" then some (0x100, 2, true) else none

theorem pitaya_set_result (m : RegMap) (name : String) (value : Int)
    (addr nr : Nat) (hmap : m name = some (addr, nr, true)) :
    pitaya_set m name value =
      if -((2 : Int) ^ (nr * 8) / 2) ≤ value ∧ value < 2 ^ (nr * 8) then
        (encodeWrites addr nr (value % 2 ^ (nr * 8)).toNat, none)
      else ([], some CsrError.outOfRange) := by
  unfold pitaya_set
  rw [hmap]
  simp

theorem int_two_pow_split (nr : Nat) (h : 1 ≤ nr) :
    ((2 : Int) ^ (nr * 8)) = 2 ^ (nr * 8 - 1) * 2 := by
  rw [← pow_succ]
  congr 1
  omega

theorem int_pow_div_two (nr : Nat) (h : 1 ≤ nr) :
    ((2 : Int) ^ (nr * 8) / 2) = 2 ^ (nr * 8 - 1) := by
  rw [int_two_pow_split nr h]
  exact Int.mul_ediv_cancel _ (by norm_num)

/-- C1 (corrected): with a writable register of byte width nr in the map,
PitayaCSR.set accepts exactly the values in [-2^(8*nr-1), 2^(8*nr)); in
particular 2^(8*nr) fails the range assertion while 2^(8*nr) - 1,
2^(8*nr-1) and 2^(8*nr-1) - 1 all succeed, and -2^(8*nr-1) - 1 fails. -/
theorem set_range_check_amended (m : RegMap) (name : String) (addr nr : Nat)
    (hmap : m name = some (addr, nr, true)) (hnr : 1 ≤ nr) :
    (pitaya_set m name (2 ^ (nr * 8))).2 = some CsrError.outOfRange ∧
    (pitaya_set m name (2 ^ (nr * 8) - 1)).2 = none ∧
    (pitaya_set m name (2 ^ (nr * 8 - 1))).2 = none ∧
    (pitaya_set m name (2 ^ (nr * 8 - 1) - 1)).2 = none ∧
    (pitaya_set m name (-(2 ^ (nr * 8 - 1)) - 1)).2 = some CsrError.outOfRange ∧
    ∀ v : Int, (pitaya_set m name v).2 = none ↔
      -(2 ^ (nr * 8 - 1)) ≤ v ∧ v < 2 ^ (nr * 8) := by
  have hpos : (0 : Int) < 2 ^ (nr * 8 - 1) := by positivity
  have h2 : ((2 : Int) ^ (nr * 8)) = 2 ^ (nr * 8 - 1) * 2 := int_two_pow_split nr hnr
  have key : ∀ v : Int, (pitaya_set m name v).2 = none ↔
      -(2 ^ (nr * 8 - 1)) ≤ v ∧ v < 2 ^ (nr * 8) := by
    intro v
    rw [pitaya_set_result m name v addr nr hmap, int_pow_div_two nr hnr]
    split <;> simp_all
  refine ⟨?_, ?_, ?_, ?_, ?_, key⟩
  · rw [pitaya_set_result m name _ addr nr hmap, int_pow_div_two nr hnr,
      if_neg (by omega)]
  · rw [pitaya_set_result m name _ addr nr hmap, int_pow_div_two nr hnr,
      if_pos ⟨by omega, by omega⟩]
  · rw [pitaya_set_result m name _ addr nr hmap, int_pow_div_two nr hnr,
      if_pos ⟨by omega, by omega⟩]
  · rw [pitaya_set_result m name _ addr nr hmap, int_pow_div_two nr hnr,
      if_pos ⟨by omega, by omega⟩]
  · rw [pitaya_set_result m name _ addr nr hmap, int_pow_div_two nr hnr,
      if_neg (by omega)]

/-- C1 witness: the amended range behaviour evaluated on the concrete
one-byte map gmap1. -/
theorem set_range_check_amended_witness :
    gmap1 "gain" = some (0x100, 1, true) ∧ 1 ≤ 1 ∧
    ((pitaya_set gmap1 "gain" (2 ^ (1 * 8))).2 = some CsrError.outOfRange ∧
     (pitaya_set gmap1 "gain" (2 ^ (1 * 8) - 1)).2 = none ∧
     (pitaya_set gmap1 "gain" (2 ^ (1 * 8 - 1))).2 = none ∧
     (pitaya_set gmap1 "gain" (2 ^ (1 * 8 - 1) - 1)).2 = none ∧
     (pitaya_set gmap1 "gain" (-(2 ^ (1 * 8 - 1)) - 1)).2 = some CsrError.outOfRange ∧
     ∀ v : Int, (pitaya_set gmap1 "gain" v).2 = none ↔
       -(2 ^ (1 * 8 - 1)) ≤ v ∧ v < 2 ^ (1 * 8)) :=
  ⟨by decide, le_refl 1,
    set_range_check_amended gmap1 "gain" 0x100 1 (by decide) (le_refl 1)⟩

/-- C1 counterexample: the claim says encoding 2^(8*width-1) for width 1,
that is the value 128, fails with OutOfRange; on the code it succeeds,
because the upper bound of the range assertion is 2^(8*width), not
2^(8*width-1). -/
theorem set_range_check_cex :
    (pitaya_set gmap1 "gain" 128).2 ≠ some CsrError.outOfRange ∧
    (pitaya_set gmap1 "gain" 128).2 = none := by
  decide

/-- C5: every failing PitayaCSR.set call (unknown register, read-only
register, or out-of-range value) fails before any per-byte write: the
list of set_one calls is empty and any register file is left unchanged. -/
theorem set_atomic_failure (m : RegMap) (name : String) (value : Int)
    (h : (pitaya_set m name value).2 ≠ none) :
    (pitaya_set m name value).1 = [] ∧
    ∀ f : Nat → Nat, applyWrites f (pitaya_set m name value).1 = f := by
  have h1 : (pitaya_set m name value).1 = [] := by
    unfold pitaya_set at h ⊢
    cases hm : m name with
    | none => rfl
    | some r =>
      obtain ⟨addr, nr, wr⟩ := r
      rw [hm] at h
      cases wr with
      | false => rfl
      | true =>
        by_cases hc : -((2 ^ (nr * 8) : Int) / 2) ≤ value ∧ value < 2 ^ (nr * 8)
        · exact absurd (by simp [hc]) h
        · simp [hc]
  exact ⟨h1, fun f => by rw [h1]; rfl⟩

/-- C5 witness: a write to a register absent from the map fails and
performs no writes. -/
theorem set_atomic_failure_witness :
    (pitaya_set (fun _ => none) "gain" 0).2 ≠ none ∧
    ((pitaya_set (fun _ => none) "gain" 0).1 = [] ∧
     ∀ f : Nat → Nat, applyWrites f (pitaya_set (fun _ => none) "gain" 0).1 = f) :=
  ⟨by decide, set_atomic_failure (fun _ => none) "gain" 0 (by decide)⟩

theorem lor_eq_add_of_lt (k c b : Nat) (hb : b < 2 ^ k) :
    (2 ^ k * c) ||| b = 2 ^ k * c + b := by
  apply Nat.eq_of_testBit_eq
  intro j
  rw [Nat.testBit_lor, Nat.testBit_mul_pow_two_add c hb j, Nat.testBit_mul_pow_two]
  by_cases h : j < k
  · simp [h, Nat.not_le_of_lt h]
  · have hj : k ≤ j := Nat.le_of_not_lt h
    have hbj : b < 2 ^ j := lt_of_lt_of_le hb (Nat.pow_le_pow_right (by norm_num) hj)
    simp [h, hj, Nat.testBit_lt_two_pow hbj]

theorem get_fold_eq (nr val : Nat) (g : Nat → Nat)
    (hg : ∀ i, i < nr → g i = val / 2 ^ (8 * (nr - 1 - i)) % 256) :
    ∀ m, m ≤ nr →
      (List.range m).foldl (fun v i => v ||| g i <<< (8 * (nr - i - 1))) 0
        = val / 2 ^ (8 * (nr - m)) % 2 ^ (8 * m) * 2 ^ (8 * (nr - m)) := by
  intro m
  induction m with
  | zero => simp [Nat.mod_one]
  | succ m ih =>
    intro hm
    have hm1 : m ≤ nr := Nat.le_of_succ_le hm
    rw [List.range_succ, List.foldl_append, ih hm1]
    simp only [List.foldl_cons, List.foldl_nil]
    have hA : nr - m - 1 = nr - 1 - m := by omega
    have hgm : g m = val / 2 ^ (8 * (nr - 1 - m)) % 256 := hg m (by omega)
    have hsplit : 8 * (nr - m) = 8 * (nr - 1 - m) + 8 := by omega
    have hnn : 8 * (nr - (m + 1)) = 8 * (nr - 1 - m) := by omega
    have hmm : 8 * (m + 1) = 8 * m + 8 := by omega
    rw [hgm, Nat.shiftLeft_eq, hA, hsplit, hnn, hmm]
    set y := val / 2 ^ (8 * (nr - 1 - m)) with hy
    have hdd : val / 2 ^ (8 * (nr - 1 - m) + 8) = y / 2 ^ 8 := by
      rw [pow_add, ← Nat.div_div_eq_div_mul, hy]
    rw [hdd]
    have h256 : (256 : Nat) = 2 ^ 8 := by norm_num
    have hb : y % 256 * 2 ^ (8 * (nr - 1 - m)) < 2 ^ (8 * (nr - 1 - m) + 8) := by
      rw [pow_add, mul_comm (y % 256) (2 ^ (8 * (nr - 1 - m)))]
      refine (Nat.mul_lt_mul_left (Nat.pos_pow_of_pos _ (by norm_num))).mpr ?_
      rw [← h256]
      exact Nat.mod_lt _ (by norm_num)
    rw [mul_comm (y / 2 ^ 8 % 2 ^ (8 * m)) (2 ^ (8 * (nr - 1 - m) + 8)),
      lor_eq_add_of_lt _ _ _ hb]
    have hp : (2 : Nat) ^ (8 * m + 8) = 2 ^ 8 * 2 ^ (8 * m) := by
      rw [pow_add, mul_comm]
    rw [hp, Nat.mod_mul, h256, pow_add]
    ring

theorem applyWrites_append (f : Nat → Nat) (ws1 ws2 : List (Nat × Nat)) :
    applyWrites f (ws1 ++ ws2) = applyWrites (applyWrites f ws1) ws2 := by
  induction ws1 generalizing f with
  | nil => rfl
  | cons p ws ih =>
    obtain ⟨a, v⟩ := p
    simp only [List.cons_append, applyWrites]
    exact ih (writeByte f a v)

theorem applyWrites_lookup_ne (f : Nat → Nat) (ws : List (Nat × Nat)) (x : Nat)
    (h : ∀ p ∈ ws, p.1 ≠ x) : applyWrites f ws x = f x := by
  induction ws generalizing f with
  | nil => rfl
  | cons p ws ih =>
    obtain ⟨a, v⟩ := p
    simp only [applyWrites]
    rw [ih (writeByte f a v) (fun q hq => h q (List.mem_cons_of_mem _ hq))]
    have ha : a ≠ x := h (a, v) (List.mem_cons_self _ _)
    unfold writeByte
    rw [if_neg (fun hxa => ha hxa.symm)]

theorem encode_lookup (f : Nat → Nat) (addr nr val i : Nat) (hi : i < nr) :
    applyWrites f (encodeWrites addr nr val) (addr + i * 4)
      = val >>> (8 * (nr - i - 1)) % 256 := by
  have hr : List.range nr
      = List.range i ++ [i] ++ List.map (fun j => i + 1 + j) (List.range (nr - i - 1)) := by
    have h1 : nr = i + (1 + (nr - i - 1)) := by omega
    rw [h1, List.range_add, List.range_add]
    simp [List.range_succ, Function.comp, Nat.add_assoc]
  unfold encodeWrites
  rw [hr]
  simp only [List.map_append, List.map_cons, List.map_nil, List.map_map]
  rw [List.append_assoc, applyWrites_append]
  have step1 : applyWrites
      (applyWrites f ((List.range i).map fun j => (addr + j * 4, val >>> (8 * (nr - j - 1)) % 256)))
      ((addr + i * 4, val >>> (8 * (nr - i - 1)) % 256)
        :: List.map ((fun j => (addr + j * 4, val >>> (8 * (nr - j - 1)) % 256)) ∘ fun j => i + 1 + j)
            (List.range (nr - i - 1))) (addr + i * 4)
      = val >>> (8 * (nr - i - 1)) % 256 := by
    simp only [applyWrites]
    rw [applyWrites_lookup_ne]
    · simp [writeByte]
    · intro p hp
      simp only [List.mem_map, Function.comp] at hp
      obtain ⟨j, hj, hpj⟩ := hp
      rw [← hpj]
      simp only [ne_eq]
      omega
  simpa using step1

theorem get_after_set (f : Nat → Nat) (addr nr val : Nat) (h : val < 2 ^ (8 * nr)) :
    pitaya_get (applyWrites f (encodeWrites addr nr val)) addr nr = val := by
  unfold pitaya_get
  rw [get_fold_eq nr val
    (fun i => applyWrites f (encodeWrites addr nr val) (addr + i * 4))
    (fun i hi => by
      dsimp only
      rw [encode_lookup f addr nr val i hi, Nat.shiftRight_eq_div_pow]
      have he : nr - i - 1 = nr - 1 - i := by omega
      rw [he]) nr (le_refl nr)]
  simp only [Nat.sub_self, Nat.mul_zero, pow_zero, Nat.div_one, mul_one]
  exact Nat.mod_eq_of_lt h

/-- C3: for every value accepted by PitayaCSR.set on a register of byte
width nr, applying the per-byte writes to any register file and reading
the register back through PitayaCSR.get yields an integer congruent to
the original value modulo 2^(8*nr) (here in fact equal to value mod
2^(8*nr), the unsigned reconstruction). -/
theorem decode_encode_roundtrip (m : RegMap) (name : String) (value : Int)
    (addr nr : Nat) (f : Nat → Nat) (ws : List (Nat × Nat))
    (hmap : m name = some (addr, nr, true))
    (hset : pitaya_set m name value = (ws, none)) :
    (pitaya_get (applyWrites f ws) addr nr : Int) % 2 ^ (nr * 8)
      = value % 2 ^ (nr * 8) := by
  rw [pitaya_set_result m name value addr nr hmap] at hset
  split at hset
  case isTrue hc =>
    have hws : ws = encodeWrites addr nr (value % 2 ^ (nr * 8)).toNat :=
      ((Prod.ext_iff.mp hset).1).symm
    have hpos : (0 : Int) < 2 ^ (nr * 8) := by positivity
    have hnn : (0 : Int) ≤ value % 2 ^ (nr * 8) := Int.emod_nonneg value (by positivity)
    have hlt : value % (2 : Int) ^ (nr * 8) < 2 ^ (nr * 8) := Int.emod_lt_of_pos value hpos
    have hcast : ((2 : Int) ^ (nr * 8)) = ((2 ^ (nr * 8) : Nat) : Int) := by push_cast; ring
    have hbound : (value % (2 : Int) ^ (nr * 8)).toNat < 2 ^ (8 * nr) := by
      have h1 : (((value % (2 : Int) ^ (nr * 8)).toNat : Int)) < (2 : Int) ^ (nr * 8) := by
        rw [Int.toNat_of_nonneg hnn]
        exact hlt
      rw [hcast] at h1
      have h2 : (value % (2 : Int) ^ (nr * 8)).toNat < 2 ^ (nr * 8) := by exact_mod_cast h1
      have h3 : (2 : Nat) ^ (nr * 8) = 2 ^ (8 * nr) := by rw [Nat.mul_comm]
      omega
    rw [hws, get_after_set f addr nr _ hbound, Int.toNat_of_nonneg hnn]
    exact Int.emod_emod_of_dvd value dvd_rfl
  case isFalse hc =>
    exact absurd (Prod.ext_iff.mp hset).2 (by simp)

/-- C3 witness: writing 300 to the two-byte register and reading it back
through an arbitrary initial register file. -/
theorem decode_encode_roundtrip_witness :
    gmap2 "gain" = some (0x100, 2, true) ∧
    pitaya_set gmap2 "gain" 300 = ([(0x100, 1), (0x104, 44)], none) ∧
    (pitaya_get (applyWrites (fun _ => 7) [(0x100, 1), (0x104, 44)]) 0x100 2 : Int) % 2 ^ (2 * 8)
      = 300 % 2 ^ (2 * 8) :=
  ⟨by decide, by decide,
    decode_encode_roundtrip gmap2 "gain" 300 0x100 2 (fun _ => 7)
      [(0x100, 1), (0x104, 44)] (by decide) (by decide)⟩

/-- C4 counterexample: with gain mapped to (address 0x100, width 2,
writable), set("gain", -1) calls set_one at addresses 0x100 and 0x104
(the code strides register bytes by 4), not at 0x100 and 0x101 as the
claim states. -/
theorem gain_write_addresses_cex :
    (pitaya_set gmap2 "gain" (-1)).1.map Prod.fst = [0x100, 0x104] ∧
    (pitaya_set gmap2 "gain" (-1)).1.map Prod.fst ≠ [0x100, 0x101] := by
  decide

/-- C4 (corrected): set("gain", -1) on the map with gain at (0x100,
width 2, writable) performs exactly two per-byte writes, at addresses
0x100 and 0x104 (4-byte stride), each carrying byte 0xFF, and a
subsequent get("gain") over any initial register file returns 0xFFFF =
65535: the reconstruction is unsigned and never sign-extends. -/
theorem gain_write_read_amended :
    pitaya_set gmap2 "gain" (-1) = ([(0x100, 0xFF), (0x104, 0xFF)], none) ∧
    ∀ f : Nat → Nat,
      pitaya_get (applyWrites f (pitaya_set gmap2 "gain" (-1)).1) 0x100 2 = 0xFFFF := by
  have h1 : pitaya_set gmap2 "gain" (-1) = ([(0x100, 0xFF), (0x104, 0xFF)], none) := by
    decide
  refine ⟨h1, fun f => ?_⟩
  rw [h1]
  have h2 : encodeWrites 0x100 2 0xFFFF = [(0x100, 0xFF), (0x104, 0xFF)] := by decide
  show pitaya_get (applyWrites f [(0x100, 0xFF), (0x104, 0xFF)]) 0x100 2 = 0xFFFF
  rw [← h2]
  exact get_after_set f 0x100 2 0xFFFF (by norm_num)

/-- Bus transactions of the migen initiator: TWrite(address, data) and
TRead(address). -/
inductive Txn where
  | wr (addr : Nat) (data : Nat) : Txn
  | rd (addr : Nat) : Txn
deriving DecidableEq

/-- Python (v >> (i*8)) & 0xff for an arbitrary-precision signed v:
arithmetic shift is floor division by 2^(i*8) and the mask keeps the
non-negative remainder mod 256; Lean Int division and modulo (ediv and
emod) agree with Python for these positive divisors. -/
def pyByte (v : Int) (i : Nat) : Nat := (v / 2 ^ (i * 8) % 256).toNat

/-- The inner loop of CsrParams.writes (src/test/transfer.py lines 81-84):
for i in reversed(range(b)): yield TWrite(a, (v >> (i*8)) & 0xff); a += 1. -/
def writes_loop (v : Int) : List Nat → Nat → List Txn
  | [], _ => []
  | i :: rest, a => Txn.wr a (pyByte v i) :: writes_loop v rest (a + 1)

/-- The per-register body of CsrParams.writes (src/test/transfer.py lines
68-84) for a named register of size n bits resolved to offset a: the byte
count is b = (n + 8 - 1)//8 and the loop runs over reversed(range(b)). -/
def csr_writes_one (a n : Nat) (v : Int) : List Txn :=
  writes_loop v (List.range ((n + 8 - 1) / 8)).reverse a

theorem writes_loop_length (v : Int) (l : List Nat) (a : Nat) :
    (writes_loop v l a).length = l.length := by
  induction l generalizing a with
  | nil => rfl
  | cons i rest ih => simp [writes_loop, ih]

theorem writes_loop_get (v : Int) (l : List Nat) (a k : Nat) :
    (writes_loop v l a)[k]? = l[k]?.map fun i => Txn.wr (a + k) (pyByte v i) := by
  induction l generalizing a k with
  | nil => simp [writes_loop]
  | cons i rest ih =>
    cases k with
    | zero => simp [writes_loop]
    | succ k =>
      simp only [writes_loop, List.getElem?_cons_succ, ih (a + 1) k]
      have h : a + 1 + k = a + (k + 1) := by omega
      rw [h]

/-- C2: a named-value write for a register of size n bits at resolved
offset a produces exactly b = (n + 8 - 1)//8 Write transactions; the k-th
transaction targets address a + k and carries byte (v >> (8*(b-1-k))) &
0xff, so the addresses are consecutive a, a+1, ..., a+b-1 and the bytes
are emitted most-significant first. -/
theorem csr_writes_one_spec (a n : Nat) (v : Int) (k : Nat)
    (hk : k < (n + 8 - 1) / 8) :
    (csr_writes_one a n v).length = (n + 8 - 1) / 8 ∧
    (csr_writes_one a n v)[k]? =
      some (Txn.wr (a + k) (pyByte v ((n + 8 - 1) / 8 - 1 - k))) := by
  constructor
  · unfold csr_writes_one
    rw [writes_loop_length, List.length_reverse, List.length_range]
  · unfold csr_writes_one
    rw [writes_loop_get]
    have hk2 : k < (List.range ((n + 8 - 1) / 8)).length := by
      rw [List.length_range]; exact hk
    rw [List.getElem?_reverse hk2]
    rw [List.length_range]
    rw [List.getElem?_range (by omega)]
    rfl

/-- C2 witness: a 24-bit register (width 3 bytes) at offset 16 written
with 0x123456 yields three transactions; the one at index 1 is
TWrite(17, 0x34). -/
theorem csr_writes_one_spec_witness :
    1 < (24 + 8 - 1) / 8 ∧
    ((csr_writes_one 16 24 0x123456).length = (24 + 8 - 1) / 8 ∧
     (csr_writes_one 16 24 0x123456)[1]? =
       some (Txn.wr (16 + 1) (pyByte 0x123456 ((24 + 8 - 1) / 8 - 1 - 1)))) :=
  ⟨by norm_num, csr_writes_one_spec 16 24 0x123456 1 (by norm_num)⟩

/-- Items of the CsrThread queue (src/test/transfer.py lines 99-113): a
bus transaction, a threading.Event, the None stop sentinel, or an integer
sleep count. -/
inductive QItem where
  | tx (t : Txn) : QItem
  | ev (id : Nat) : QItem
  | stop : QItem
  | sleep (n : Nat) : QItem
deriving DecidableEq

/-- One iteration of the while loop of CsrThread.gen: the result lists
the simulation cycles produced by the iteration (some t for a yielded
transaction, none for an idle yield), the events set, the remaining
queue, and whether the loop broke.  Popping the empty queue raises
IndexError, which the loop catches by yielding None once; an Event is set
without yielding; the None sentinel breaks; an int n yields n idle
cycles; anything else is yielded as a transaction. -/
def gen_iter : List QItem → List (Option Txn) × List Nat × List QItem × Bool
  | [] => ([none], [], [], false)
  | QItem.ev e :: rest => ([], [e], rest, false)
  | QItem.stop :: rest => ([], [], rest, true)
  | QItem.sleep n :: rest => (List.replicate n none, [], rest, false)
  | QItem.tx t :: rest => ([some t], [], rest, false)

/-- n iterations of CsrThread.gen, collecting the yielded cycles and
whether the loop has broken. -/
def gen_iters : Nat → List QItem → List (Option Txn) × Bool
  | 0, _ => ([], false)
  | n + 1, q =>
    match gen_iter q with
    | (ys, _, _, true) => (ys, true)
    | (ys, _, rest, false) =>
      let r := gen_iters n rest
      (ys ++ r.1, r.2)

/-- C8: popping from an empty queue is not an error: one iteration of
CsrThread.gen on the empty queue yields exactly one idle cycle and does
not break the loop, n iterations idle for n cycles with the loop still
live and the queue still consumable, and a transaction that then arrives
is yielded normally. -/
theorem gen_empty_queue_idles :
    gen_iter [] = ([none], [], [], false) ∧
    (∀ n : Nat, gen_iters n [] = (List.replicate n none, false)) ∧
    ∀ t : Txn, gen_iter [QItem.tx t] = ([some t], [], [], false) := by
  refine ⟨rfl, ?_, fun t => rfl⟩
  intro n
  induction n with
  | zero => rfl
  | succ n ih => simp [gen_iters, gen_iter, ih, List.replicate_succ]

/-- Python `x or d` for a non-negative integer x: d exactly when x is 0. -/
def pyIntOr (v d : Nat) : Nat := if v = 0 then d else v

/-- PitayaCSR.get addressed by register name: addr, nr, wr =
self.map[name] followed by the get loop; none models the KeyError on a
missing name. -/
def pitaya_get_name (f : Nat → Nat) (m : RegMap) (name : String) : Option Nat :=
  (m name).map fun e => pitaya_get f e.1 e.2.1

/-- The shift/width selection of PitayaCSR.set_iir (src/test/csr.py lines
28-29): shift = self.get(prefix + "_shift") or 16 and width =
self.get(prefix + "_width") or 25, the pair then passed to get_params. -/
def set_iir_shift_width (f : Nat → Nat) (m : RegMap) (pre : String) :
    Option (Nat × Nat) :=
  match pitaya_get_name f m (pre ++ "_shift"), pitaya_get_name f m (pre ++ "_width") with
  | some s, some w => some (pyIntOr s 16, pyIntOr w 25)
  | _, _ => none

/-- C10: whenever the shift and width registers read back as 0 (as on the
simulated backend, whose get_one returns 0 for every address, hence every
get returns 0), set_iir substitutes the defaults shift = 16 and
width = 25, ignoring the device-reported values. -/
theorem set_iir_defaults (f : Nat → Nat) (m : RegMap) (pre : String)
    (aS nS aW nW : Nat) (bS bW : Bool)
    (hS : m (pre ++ "_shift") = some (aS, nS, bS))
    (hW : m (pre ++ "_width") = some (aW, nW, bW))
    (hS0 : pitaya_get f aS nS = 0)
    (hW0 : pitaya_get f aW nW = 0) :
    set_iir_shift_width f m pre = some (16, 25) := by
  unfold set_iir_shift_width pitaya_get_name
  rw [hS, hW]
  simp [hS0, hW0, pyIntOr]

/-- Map with one-byte shift and width registers, for the set_iir claim. -/
def iirMap : RegMap := fun s =>
  if s = "fast_shift" then some (0, 1, true)
  else if s = "fast_width" then some (4, 1, true)
  else none

theorem pitaya_get_zero_file (addr nr : Nat) :
    pitaya_get (fun a => pitayaTB_get_one a) addr nr = 0 := by
  unfold pitaya_get pitayaTB_get_one
  induction nr with
  | zero => rfl
  | succ n ih =>
    rw [List.range_succ, List.foldl_append]
    simp [ih]

/-- C10 witness: on the simulated backend register file (every read 0)
with concrete shift/width registers, set_iir picks (16, 25). -/
theorem set_iir_defaults_witness :
    set_iir_shift_width (fun a => pitayaTB_get_one a) iirMap "fast" = some (16, 25) :=
  set_iir_defaults (fun a => pitayaTB_get_one a) iirMap "fast" 0 1 4 1 true true
    (by decide) (by decide) (pitaya_get_zero_file 0 1) (pitaya_get_zero_file 4 1)

/-- State of the Filter sampler (src/test/transfer.py lines 16-46): the
device cycle counter, the remaining inputs (the xgen iterator), the
pending output-due effective cycles (ygen), and the captured outputs
together with the device cycle at which each was sampled. -/
structure SimState where
  cycle : Nat
  xs : List Int
  pend : List Int
  ys : List (Nat × Int)
deriving DecidableEq

/-- Filter.__init__ (src/test/transfer.py line 24) floors the warmup to a
multiple of the interval: warmup -= warmup % interval. -/
def mkWarmup (warmup interval : Nat) : Nat := warmup - warmup % interval

/-- One call of Filter.do_simulation (src/test/transfer.py lines 29-46):
c = cycle_counter - warmup; if c < 0 the call returns; if len(y) ==
len(x) it raises StopSimulation (none); otherwise, when c % interval == 0
and the input iterator is not exhausted, the next input is applied and
c + 1 + latency is appended to ygen; then, if ygen is non-empty and c
equals its head, the head is popped and the device output dut.y (the
oracle dev sampled at the current device cycle) is captured.  The device
clock advances one cycle per call. -/
def do_simulation_step (xLen warmup latency interval : Nat) (dev : Nat → Int)
    (s : SimState) : Option SimState :=
  let c : Int := (s.cycle : Int) - (warmup : Int)
  if c < 0 then some { s with cycle := s.cycle + 1 }
  else if s.ys.length = xLen then none
  else
    let s1 :=
      if c % (interval : Int) = 0 then
        match s.xs with
        | [] => s
        | _ :: tl => { s with xs := tl, pend := s.pend ++ [c + 1 + (latency : Int)] }
      else s
    let s2 :=
      match s1.pend with
      | [] => s1
      | d :: ds =>
        if c = d then { s1 with pend := ds, ys := s1.ys ++ [(s1.cycle, dev s1.cycle)] }
        else s1
    some { s2 with cycle := s2.cycle + 1 }

/-- run_simulation driving do_simulation once per device cycle until
StopSimulation, with explicit fuel: some s is the state in which the run
stopped, none means the fuel ran out before termination. -/
def run_simulation_loop (xLen warmup latency interval : Nat) (dev : Nat → Int) :
    Nat → SimState → Option SimState
  | 0, _ => none
  | fuel + 1, s =>
    match do_simulation_step xLen warmup latency interval dev s with
    | none => some s
    | some s1 => run_simulation_loop xLen warmup latency interval dev fuel s1

theorem run_succ (xLen warmup latency interval : Nat) (dev : Nat → Int)
    (fuel : Nat) (s s1 : SimState)
    (h : do_simulation_step xLen warmup latency interval dev s = some s1) :
    run_simulation_loop xLen warmup latency interval dev (fuel + 1) s
      = run_simulation_loop xLen warmup latency interval dev fuel s1 := by
  conv_lhs => rw [run_simulation_loop]
  rw [h]

theorem run_halt (xLen warmup latency interval : Nat) (dev : Nat → Int)
    (fuel : Nat) (s : SimState)
    (h : do_simulation_step xLen warmup latency interval dev s = none) :
    run_simulation_loop xLen warmup latency interval dev (fuel + 1) s = some s := by
  conv_lhs => rw [run_simulation_loop]
  rw [h]

theorem step_warmup (xLen warmup latency interval : Nat) (dev : Nat → Int)
    (s : SimState) (h : s.cycle < warmup) :
    do_simulation_step xLen warmup latency interval dev s
      = some { s with cycle := s.cycle + 1 } := by
  unfold do_simulation_step
  rw [if_pos (by omega)]

theorem run_warmup (xLen warmup latency interval : Nat) (dev : Nat → Int) :
    ∀ (n fuel : Nat) (s : SimState), s.cycle + n ≤ warmup →
      run_simulation_loop xLen warmup latency interval dev (n + fuel) s
        = run_simulation_loop xLen warmup latency interval dev fuel
            { s with cycle := s.cycle + n } := by
  intro n
  induction n with
  | zero =>
    intro fuel s h
    simp
  | succ n ih =>
    intro fuel s h
    have hrw : n + 1 + fuel = (n + fuel) + 1 := by omega
    rw [hrw, run_succ _ _ _ _ _ _ _ _ (step_warmup _ _ _ _ _ s (by omega))]
    have := ih fuel { s with cycle := s.cycle + 1 } (by simp; omega)
    rw [this]
    have hc : s.cycle + 1 + n = s.cycle + (n + 1) := by omega
    simp only [hc]

/-- C7 counterexample: an empty-input run with warmup 2 and interval 1
(so the floored warmup is 2) terminates only at device cycle 2, having
advanced the device clock past cycle 0, against the claim that it
terminates without advancing past cycle 0. -/
theorem sampler_empty_input_cex :
    (run_simulation_loop 0 (mkWarmup 2 1) 0 1 (fun _ => 0) 3
        ⟨0, [], [], []⟩).map SimState.cycle = some 2 ∧ (2 : Nat) ≠ 0 := by
  constructor
  · rfl
  · decide

/-- C7 (corrected): an empty-input sampling run captures zero outputs and
terminates the first time the effective cycle reaches 0, that is at
device cycle warmup' = warmup - warmup % interval, never advancing past
effective cycle 0; only for warmup' = 0 does it stop at device cycle 0. -/
theorem sampler_empty_input_amended (warmup latency interval : Nat)
    (dev : Nat → Int) (_hitv : 1 ≤ interval) :
    run_simulation_loop 0 (mkWarmup warmup interval) latency interval dev
        (mkWarmup warmup interval + 1) ⟨0, [], [], []⟩
      = some ⟨mkWarmup warmup interval, [], [], []⟩ := by
  have hrun := run_warmup 0 (mkWarmup warmup interval) latency interval dev
    (mkWarmup warmup interval) 1 ⟨0, [], [], []⟩ (by simp)
  rw [hrun]
  have hstep : do_simulation_step 0 (mkWarmup warmup interval) latency interval dev
      ⟨0 + mkWarmup warmup interval, [], [], []⟩ = none := by
    unfold do_simulation_step
    rw [if_neg (by simp)]
    simp
  rw [run_halt _ _ _ _ _ _ _ hstep]
  simp

/-- C7 witness: the amended termination behaviour at warmup 2, interval
1, latency 0 on the all-zero device. -/
theorem sampler_empty_input_amended_witness :
    1 ≤ 1 ∧
    run_simulation_loop 0 (mkWarmup 2 1) 0 1 (fun _ => 0) (mkWarmup 2 1 + 1)
        ⟨0, [], [], []⟩ = some ⟨mkWarmup 2 1, [], [], []⟩ :=
  ⟨le_refl 1, sampler_empty_input_amended 2 0 1 (fun _ => 0) (le_refl 1)⟩

theorem step_stop (xLen latency : Nat) (dev : Nat → Int) (cyc : Nat)
    (xs pend : List Int) (ys : List (Nat × Int)) (hys : ys.length = xLen) :
    do_simulation_step xLen 0 latency 1 dev ⟨cyc, xs, pend, ys⟩ = none := by
  unfold do_simulation_step
  rw [if_neg (by simp), if_pos hys]

theorem step_apply_fresh (xLen latency : Nat) (dev : Nat → Int) (cyc : Nat)
    (x : Int) (tl : List Int) (ys : List (Nat × Int)) (hys : ys.length ≠ xLen) :
    do_simulation_step xLen 0 latency 1 dev ⟨cyc, x :: tl, [], ys⟩
      = some ⟨cyc + 1, tl, [(cyc : Int) + 1 + (latency : Int)], ys⟩ := by
  have hne : ¬((cyc : Int) = (cyc : Int) + 1 + (latency : Int)) := by omega
  unfold do_simulation_step
  rw [if_neg (by simp), if_neg hys]
  simp only [Nat.cast_zero, sub_zero, Nat.cast_one, Int.emod_one,
    eq_self_iff_true, if_true, List.nil_append]
  rw [if_neg hne]

theorem step_apply_nocap (xLen latency : Nat) (dev : Nat → Int) (cyc : Nat)
    (x : Int) (tl : List Int) (d : Int) (ds : List Int) (ys : List (Nat × Int))
    (hys : ys.length ≠ xLen) (hd : (cyc : Int) ≠ d) :
    do_simulation_step xLen 0 latency 1 dev ⟨cyc, x :: tl, d :: ds, ys⟩
      = some ⟨cyc + 1, tl, d :: (ds ++ [(cyc : Int) + 1 + (latency : Int)]), ys⟩ := by
  unfold do_simulation_step
  rw [if_neg (by simp), if_neg hys]
  simp only [Nat.cast_zero, sub_zero, Nat.cast_one, Int.emod_one,
    eq_self_iff_true, if_true, List.cons_append]
  rw [if_neg hd]

theorem step_apply_cap (xLen latency : Nat) (dev : Nat → Int) (cyc : Nat)
    (x : Int) (tl : List Int) (ds : List Int) (ys : List (Nat × Int))
    (hys : ys.length ≠ xLen) :
    do_simulation_step xLen 0 latency 1 dev ⟨cyc, x :: tl, (cyc : Int) :: ds, ys⟩
      = some ⟨cyc + 1, tl, ds ++ [(cyc : Int) + 1 + (latency : Int)],
          ys ++ [(cyc, dev cyc)]⟩ := by
  unfold do_simulation_step
  rw [if_neg (by simp), if_neg hys]
  simp only [Nat.cast_zero, sub_zero, Nat.cast_one, Int.emod_one,
    eq_self_iff_true, if_true, List.cons_append]

theorem step_idle_pend (xLen latency : Nat) (dev : Nat → Int) (cyc : Nat)
    (d : Int) (ds : List Int) (ys : List (Nat × Int))
    (hys : ys.length ≠ xLen) (hd : (cyc : Int) ≠ d) :
    do_simulation_step xLen 0 latency 1 dev ⟨cyc, [], d :: ds, ys⟩
      = some ⟨cyc + 1, [], d :: ds, ys⟩ := by
  unfold do_simulation_step
  rw [if_neg (by simp), if_neg hys]
  simp only [Nat.cast_zero, sub_zero, Nat.cast_one, Int.emod_one,
    eq_self_iff_true, if_true]
  rw [if_neg hd]

theorem step_capture (xLen latency : Nat) (dev : Nat → Int) (cyc : Nat)
    (ds : List Int) (ys : List (Nat × Int)) (hys : ys.length ≠ xLen) :
    do_simulation_step xLen 0 latency 1 dev ⟨cyc, [], (cyc : Int) :: ds, ys⟩
      = some ⟨cyc + 1, [], ds, ys ++ [(cyc, dev cyc)]⟩ := by
  unfold do_simulation_step
  rw [if_neg (by simp), if_neg hys]
  simp only [Nat.cast_zero, sub_zero, Nat.cast_one, Int.emod_one,
    eq_self_iff_true, if_true]

/-- The pending due cycles kept in ygen, as integers, for a block of
consecutive due cycles. -/
def intsOf (l : List Nat) : List Int := l.map fun t => (t : Int)

/-- The captures made at a block of consecutive due cycles: the device
output sampled at each cycle. -/
def capturesOf (dev : Nat → Int) (l : List Nat) : List (Nat × Int) :=
  l.map fun t => (t, dev t)

theorem run_drain (xLen latency : Nat) (dev : Nat → Int) :
    ∀ (f m d cyc : Nat) (ys : List (Nat × Int)),
      f = d + m + 1 - cyc → ys.length + m = xLen → cyc ≤ d →
      run_simulation_loop xLen 0 latency 1 dev f
          ⟨cyc, [], intsOf (List.range' d m), ys⟩
        = some ⟨if m = 0 then cyc else d + m, [], [],
            ys ++ capturesOf dev (List.range' d m)⟩ := by
  intro f
  induction f with
  | zero =>
    intro m d cyc ys hf hlen hcd
    exact absurd hf (by omega)
  | succ f ih =>
    intro m d cyc ys hf hlen hcd
    cases m with
    | zero =>
      rw [run_halt _ _ _ _ _ _ _ (step_stop xLen latency dev cyc _ _ ys (by omega))]
      simp [capturesOf, intsOf]
    | succ m1 =>
      have hys : ys.length ≠ xLen := by omega
      by_cases hcyc : cyc = d
      · subst hcyc
        rw [show intsOf (List.range' cyc (m1 + 1))
              = (cyc : Int) :: intsOf (List.range' (cyc + 1) m1) from rfl]
        rw [run_succ _ _ _ _ _ _ _ _
          (step_capture xLen latency dev cyc (intsOf (List.range' (cyc + 1) m1)) ys hys)]
        rw [ih m1 (cyc + 1) (cyc + 1) (ys ++ [(cyc, dev cyc)]) (by omega)
          (by simp [List.length_append]; omega) (le_refl _)]
        have hcyce : (if m1 = 0 then cyc + 1 else cyc + 1 + m1) = cyc + (m1 + 1) := by
          split <;> omega
        rw [hcyce]
        have hl : (ys ++ [(cyc, dev cyc)]) ++ capturesOf dev (List.range' (cyc + 1) m1)
            = ys ++ capturesOf dev (List.range' cyc (m1 + 1)) := by
          rw [List.append_assoc]
          rfl
        rw [hl]
        have hfin : cyc + (m1 + 1) = if m1 + 1 = 0 then cyc else cyc + (m1 + 1) := by
          simp
        rw [← hfin]
      · have hne : (cyc : Int) ≠ (d : Int) := by
          intro hc
          exact hcyc (by exact_mod_cast hc)
        rw [show intsOf (List.range' d (m1 + 1))
              = (d : Int) :: intsOf (List.range' (d + 1) m1) from rfl]
        rw [run_succ _ _ _ _ _ _ _ _
          (step_idle_pend xLen latency dev cyc (d : Int)
            (intsOf (List.range' (d + 1) m1)) ys hys hne)]
        rw [show ((d : Int) :: intsOf (List.range' (d + 1) m1))
              = intsOf (List.range' d (m1 + 1)) from rfl]
        rw [ih (m1 + 1) d (cyc + 1) ys (by omega) hlen (by omega)]
        simp

/-- C6: with latency L, interval 1, warmup 0 and the three-element input
sequence [i0, i1, i2], the sampler records each applied input's due cycle
as effective_cycle + 1 + latency, captures exactly 3 outputs, and output
k is captured at device clock cycle k + 1 + L. -/
theorem sampler_latency_alignment (L : Nat) (dev : Nat → Int) (i0 i1 i2 : Int) :
    (run_simulation_loop 3 0 L 1 dev (L + 5)
        ⟨0, [i0, i1, i2], [], []⟩).map SimState.ys
      = some [(1 + L, dev (1 + L)), (2 + L, dev (2 + L)), (3 + L, dev (3 + L))] := by
  rcases Nat.lt_or_ge L 2 with h2 | h2
  · interval_cases L
    · simp [run_simulation_loop, do_simulation_step]
    · simp [run_simulation_loop, do_simulation_step]
  · have hs0 : run_simulation_loop 3 0 L 1 dev (L + 5) ⟨0, [i0, i1, i2], [], []⟩
        = run_simulation_loop 3 0 L 1 dev (L + 4)
            ⟨1, [i1, i2], [((0 : Nat) : Int) + 1 + (L : Int)], []⟩ :=
      run_succ 3 0 L 1 dev (L + 4) _ _
        (step_apply_fresh 3 L dev 0 i0 [i1, i2] [] (by simp))
    have hs1 : run_simulation_loop 3 0 L 1 dev (L + 4)
          ⟨1, [i1, i2], [((0 : Nat) : Int) + 1 + (L : Int)], []⟩
        = run_simulation_loop 3 0 L 1 dev (L + 3)
            ⟨2, [i2], (((0 : Nat) : Int) + 1 + (L : Int))
                :: ([] ++ [((1 : Nat) : Int) + 1 + (L : Int)]), []⟩ :=
      run_succ 3 0 L 1 dev (L + 3) _ _
        (step_apply_nocap 3 L dev 1 i1 [i2] (((0 : Nat) : Int) + 1 + (L : Int)) [] []
          (by simp) (by omega))
    have hs2 : run_simulation_loop 3 0 L 1 dev (L + 3)
          ⟨2, [i2], (((0 : Nat) : Int) + 1 + (L : Int))
              :: ([] ++ [((1 : Nat) : Int) + 1 + (L : Int)]), []⟩
        = run_simulation_loop 3 0 L 1 dev (L + 2)
            ⟨3, [], (((0 : Nat) : Int) + 1 + (L : Int))
                :: (([] ++ [((1 : Nat) : Int) + 1 + (L : Int)])
                    ++ [((2 : Nat) : Int) + 1 + (L : Int)]), []⟩ :=
      run_succ 3 0 L 1 dev (L + 2) _ _
        (step_apply_nocap 3 L dev 2 i2 [] (((0 : Nat) : Int) + 1 + (L : Int))
          ([] ++ [((1 : Nat) : Int) + 1 + (L : Int)]) [] (by simp) (by omega))
    have hp : (((0 : Nat) : Int) + 1 + (L : Int))
          :: (([] ++ [((1 : Nat) : Int) + 1 + (L : Int)])
              ++ [((2 : Nat) : Int) + 1 + (L : Int)])
        = intsOf (List.range' (1 + L) 3) := by
      simp [intsOf, List.range']
      omega
    have hdr : run_simulation_loop 3 0 L 1 dev (L + 2)
          ⟨3, [], (((0 : Nat) : Int) + 1 + (L : Int))
              :: (([] ++ [((1 : Nat) : Int) + 1 + (L : Int)])
                  ++ [((2 : Nat) : Int) + 1 + (L : Int)]), []⟩
        = some ⟨1 + L + 3, [], [], [] ++ capturesOf dev (List.range' (1 + L) 3)⟩ := by
      rw [hp]
      rw [run_drain 3 L dev (L + 2) 3 (1 + L) 3 [] (by omega) (by simp) (by omega)]
      norm_num
    rw [hs0, hs1, hs2, hdr]
    rw [show (2 : Nat) + L = 1 + L + 1 by omega, show (3 : Nat) + L = 1 + L + 1 + 1 by omega]
    simp [capturesOf, List.range']

/-- Filter.__init__ (src/test/transfer.py line 18): self.scale =
2**(flen(self.dut.x) - 1) - 1, the fixed-point full scale derived from
the bit width of the input signal dut.x. -/
def filter_scale (xWidth : Nat) : Nat := 2 ^ (xWidth - 1) - 1

/-- numpy .astype(int) on a float: truncation toward zero. -/
def astypeInt (q : Rat) : Int := if q < 0 then -⌊-q⌋ else ⌊q⌋

/-- Filter.__init__ (src/test/transfer.py line 20): the integer input
samples driven into the device, self.x = (self.scale * x).astype(int). -/
def filter_init_x (xWidth : Nat) (x : List Rat) : List Int :=
  x.map fun v => astypeInt (filter_scale xWidth * v)

/-- Filter.run (src/test/transfer.py lines 48-52): the returned input
sequence x = np.array(self.x) / self.scale. -/
def filter_run_x (xWidth : Nat) (x : List Rat) : List Rat :=
  (filter_init_x xWidth x).map fun (v : Int) => (v : Rat) / filter_scale xWidth

/-- Filter.run: the returned output sequence y = np.array(self.y) /
self.scale. -/
def filter_run_y (xWidth : Nat) (yRaw : List Int) : List Rat :=
  yRaw.map fun (v : Int) => (v : Rat) / filter_scale xWidth

theorem astypeInt_le (q : Rat) (B : Nat) (h : |q| ≤ (B : Rat)) :
    -(B : Int) ≤ astypeInt q ∧ astypeInt q ≤ (B : Int) := by
  obtain ⟨hlo, hhi⟩ := abs_le.mp h
  unfold astypeInt
  split
  case isTrue hq =>
    have h1 : (0 : Int) ≤ ⌊-q⌋ := by
      rw [Int.le_floor]
      push_cast
      linarith
    have h2 : ⌊-q⌋ ≤ (B : Int) := by
      have hb : -q ≤ ((B : Int) : Rat) := by push_cast; linarith
      calc ⌊-q⌋ ≤ ⌊((B : Int) : Rat)⌋ := Int.floor_le_floor hb
        _ = (B : Int) := Int.floor_intCast _
    omega
  case isFalse hq =>
    have h1 : (0 : Int) ≤ ⌊q⌋ := by
      rw [Int.le_floor]
      push_cast
      linarith [not_lt.mp hq]
    have h2 : ⌊q⌋ ≤ (B : Int) := by
      have hb : q ≤ ((B : Int) : Rat) := by push_cast; linarith
      calc ⌊q⌋ ≤ ⌊((B : Int) : Rat)⌋ := Int.floor_le_floor hb
        _ = (B : Int) := Int.floor_intCast _
    omega

/-- C9 (corrected): the quantization factor is 2^(xw - 1) - 1 where xw
is the bit width of the input signal dut.x, not of the output; the raw
inputs are multiplied by it and truncated to integers before driving the
device, the captured raw outputs are divided by it, and for xw ≥ 2 and
raw inputs in [-1, 1] the returned input sequence lies in [-1, 1]. -/
theorem scale_normalization_amended (xw : Nat) (hxw : 2 ≤ xw)
    (x : List Rat) (hx : ∀ v ∈ x, |v| ≤ 1) :
    (filter_run_x xw x).length = x.length ∧
    (∀ u ∈ filter_run_x xw x, |u| ≤ 1) ∧
    (∀ yRaw : List Int, filter_run_y xw yRaw
        = yRaw.map fun (v : Int) => (v : Rat) / filter_scale xw) := by
  refine ⟨by simp [filter_run_x, filter_init_x], ?_, fun yRaw => rfl⟩
  intro u hu
  simp only [filter_run_x, filter_init_x, List.map_map, List.mem_map,
    Function.comp] at hu
  obtain ⟨v, hv, rfl⟩ := hu
  have hs1 : 1 ≤ filter_scale xw := by
    unfold filter_scale
    have hp : 2 ^ 1 ≤ 2 ^ (xw - 1) := Nat.pow_le_pow_right (by norm_num) (by omega)
    omega
  have hspos : (0 : Rat) < (filter_scale xw : Rat) := by exact_mod_cast hs1
  have hq : |(filter_scale xw : Rat) * v| ≤ ((filter_scale xw : Nat) : Rat) := by
    rw [abs_mul, abs_of_nonneg (le_of_lt hspos)]
    calc (filter_scale xw : Rat) * |v|
        ≤ (filter_scale xw : Rat) * 1 :=
          mul_le_mul_of_nonneg_left (hx v hv) (le_of_lt hspos)
      _ = (filter_scale xw : Rat) := mul_one _
  obtain ⟨hl, hr⟩ := astypeInt_le _ (filter_scale xw) hq
  rw [abs_div, abs_of_nonneg (le_of_lt hspos), div_le_one hspos, abs_le]
  constructor
  · exact_mod_cast hl
  · exact_mod_cast hr

/-- C9 witness: a concrete device with input width 2 and the one-element
raw input sequence [1]. -/
theorem scale_normalization_amended_witness :
    2 ≤ 2 ∧ (∀ v ∈ [(1 : Rat)], |v| ≤ 1) ∧
    ((filter_run_x 2 [1]).length = [(1 : Rat)].length ∧
     (∀ u ∈ filter_run_x 2 [1], |u| ≤ 1) ∧
     (∀ yRaw : List Int, filter_run_y 2 yRaw
         = yRaw.map fun (v : Int) => (v : Rat) / filter_scale 2)) :=
  ⟨le_refl 2, by norm_num,
    scale_normalization_amended 2 (le_refl 2) [1] (by norm_num)⟩

/-- C9 counterexample: for a device whose input signal is 4 bits wide
and whose output signal is 8 bits wide, the code derives the scale from
the input width: filter_scale 4 = 2^(4-1) - 1 = 7, which differs from
the output-width full scale 2^(8-1) - 1 = 127, refuting the claim that
the factor is derived from the output bit width. -/
theorem scale_from_input_width_cex :
    filter_scale 4 = 7 ∧ (7 : Nat) ≠ 2 ^ (8 - 1) - 1 := by
  decide
